import Mathlib

/-!
Verification development for the Twinkly-Matrix-App pixel delivery core:
the DDP frame assembler and pacing loop of TwinklyWall/ddp_bridge.py and
the FPP overlay writer of TwinklyWall/dotmatrix/fpp_output.py, embedded
shallowly over lists and rational scalars.
-/

namespace TwinklyWall

/-! ## Color correction (FPPOutput) -/

/-- Selector for a component of a natural-number pixel triple, indexed the
way the source indexes the tuple produced by the channel-order lookup. -/
def selN (t : ℕ × ℕ × ℕ) : Fin 3 → ℕ := ![t.1, t.2.1, t.2.2]

/-- Selector for a component of a rational triple. -/
def selQ (t : ℚ × ℚ × ℚ) : Fin 3 → ℚ := ![t.1, t.2.1, t.2.2]

/-- Selector for a component of an integer triple. -/
def selZ (t : ℤ × ℤ × ℤ) : Fin 3 → ℤ := ![t.1, t.2.1, t.2.2]

/-- Correction configuration of FPPOutput: optional gamma, per-channel
gains, and the precomputed channel-order index triple. -/
structure CorrectionCfg where
  gamma : Option ℚ
  gains : ℚ × ℚ × ℚ
  chIdx : Fin 3 × Fin 3 × Fin 3
deriving DecidableEq

/-- Guard used by both correction paths of the source: gamma is present
and differs from 1 by more than 1e-3. -/
def gammaActive : Option ℚ → Bool
  | none => false
  | some g => decide (1 / 1000 < |g - 1|)

/-- Clamp a rational to the interval from 0 to 255. -/
def clampQ (v : ℚ) : ℚ := max 0 (min 255 v)

/-- Clip to the byte range and truncate, the effect of np.clip followed by
astype to uint8 on a nonnegative value. -/
def floorClamp (v : ℚ) : ℕ := (⌊clampQ v⌋).toNat

/-- Gamma stage shared by both paths: the source computes
pow(clamp(v,0,255)/255, gamma)*255 in floating point; that whole curve is
abstracted as the function argument gcurve, applied exactly when the
gammaActive guard of the source holds. -/
def stageQ (cfg : CorrectionCfg) (gcurve : ℚ → ℚ) (v : ℚ) : ℚ :=
  if gammaActive cfg.gamma then gcurve v else v

/-- Embedding of FPPOutput._apply_correction_numpy on one pixel of the
batch: early identity return, then gain in the original channel
positions, then gamma, then clip and cast, and the channel permutation
applied last. -/
def applyCorrectionNumpyPix (cfg : CorrectionCfg) (gcurve : ℚ → ℚ)
    (p : ℕ × ℕ × ℕ) : ℕ × ℕ × ℕ :=
  if cfg.gamma = none ∧ cfg.gains = (1, 1, 1) ∧ cfg.chIdx = (0, 1, 2) then p
  else
    let a0 : ℚ × ℚ × ℚ := ((p.1 : ℚ), (p.2.1 : ℚ), (p.2.2 : ℚ))
    let a1 : ℚ × ℚ × ℚ :=
      if cfg.gains ≠ (1, 1, 1) then
        (a0.1 * cfg.gains.1, a0.2.1 * cfg.gains.2.1, a0.2.2 * cfg.gains.2.2)
      else a0
    let a2 : ℚ × ℚ × ℚ :=
      if gammaActive cfg.gamma then (gcurve a1.1, gcurve a1.2.1, gcurve a1.2.2) else a1
    let u : ℕ × ℕ × ℕ := (floorClamp a2.1, floorClamp a2.2.1, floorClamp a2.2.2)
    if cfg.chIdx ≠ (0, 1, 2) then
      (selN u cfg.chIdx.1, selN u cfg.chIdx.2.1, selN u cfg.chIdx.2.2)
    else u

/-- Embedding of FPPOutput._apply_correction_numpy on an N by 3 batch;
the vectorized numpy operations act pixelwise. -/
def applyCorrectionNumpy (cfg : CorrectionCfg) (gcurve : ℚ → ℚ)
    (batch : List (ℕ × ℕ × ℕ)) : List (ℕ × ℕ × ℕ) :=
  batch.map (applyCorrectionNumpyPix cfg gcurve)

/-- Rounding of the Python builtin round on a rational: round half to
even. -/
def pyRound (v : ℚ) : ℤ :=
  if Int.fract v = 1 / 2 then (if ⌊v⌋ % 2 = 0 then ⌊v⌋ else ⌊v⌋ + 1) else round v

/-- Embedding of FPPOutput._apply_correction_tuple: permutation first,
then, when a gain or gamma is active, gain, gamma, round, and clamp. -/
def applyCorrectionTuplePix (cfg : CorrectionCfg) (gcurve : ℚ → ℚ)
    (r g b : ℤ) : ℤ × ℤ × ℤ :=
  let p0 : ℤ × ℤ × ℤ :=
    if cfg.chIdx ≠ (0, 1, 2) then
      (selZ (r, g, b) cfg.chIdx.1, selZ (r, g, b) cfg.chIdx.2.1, selZ (r, g, b) cfg.chIdx.2.2)
    else (r, g, b)
  if cfg.gains ≠ (1, 1, 1) ∨ gammaActive cfg.gamma = true then
    let rf := stageQ cfg gcurve ((p0.1 : ℚ) * cfg.gains.1)
    let gf := stageQ cfg gcurve ((p0.2.1 : ℚ) * cfg.gains.2.1)
    let bf := stageQ cfg gcurve ((p0.2.2 : ℚ) * cfg.gains.2.2)
    (max 0 (min 255 (pyRound rf)), max 0 (min 255 (pyRound gf)), max 0 (min 255 (pyRound bf)))
  else p0

/-- Reference correction on one pixel, following the words of the claim:
permute the channels per the configured order, multiply each channel by
its gain, apply gamma, then clamp and cast to a byte. -/
def refCorrectionPix (cfg : CorrectionCfg) (gcurve : ℚ → ℚ)
    (p : ℕ × ℕ × ℕ) : ℕ × ℕ × ℕ :=
  let q0 : ℚ × ℚ × ℚ :=
    ((selN p cfg.chIdx.1 : ℚ), (selN p cfg.chIdx.2.1 : ℚ), (selN p cfg.chIdx.2.2 : ℚ))
  let q1 : ℚ × ℚ × ℚ := (q0.1 * cfg.gains.1, q0.2.1 * cfg.gains.2.1, q0.2.2 * cfg.gains.2.2)
  let q2 : ℚ × ℚ × ℚ :=
    if gammaActive cfg.gamma then (gcurve q1.1, gcurve q1.2.1, gcurve q1.2.2) else q1
  (floorClamp q2.1, floorClamp q2.2.1, floorClamp q2.2.2)

/-- Reference correction on an N by 3 batch. -/
def refCorrection (cfg : CorrectionCfg) (gcurve : ℚ → ℚ)
    (batch : List (ℕ × ℕ × ℕ)) : List (ℕ × ℕ × ℕ) :=
  batch.map (refCorrectionPix cfg gcurve)

/-- Reference correction on an integer triple with round half to even in
place of truncation, matching the casting of the per-pixel source path. -/
def refCorrectionRoundPix (cfg : CorrectionCfg) (gcurve : ℚ → ℚ)
    (r g b : ℤ) : ℤ × ℤ × ℤ :=
  let q0 : ℚ × ℚ × ℚ :=
    ((selZ (r, g, b) cfg.chIdx.1 : ℚ), (selZ (r, g, b) cfg.chIdx.2.1 : ℚ),
      (selZ (r, g, b) cfg.chIdx.2.2 : ℚ))
  let q1 : ℚ × ℚ × ℚ := (q0.1 * cfg.gains.1, q0.2.1 * cfg.gains.2.1, q0.2.2 * cfg.gains.2.2)
  let q2 : ℚ × ℚ × ℚ :=
    if gammaActive cfg.gamma then (gcurve q1.1, gcurve q1.2.1, gcurve q1.2.2) else q1
  (max 0 (min 255 (pyRound q2.1)), max 0 (min 255 (pyRound q2.2.1)),
    max 0 (min 255 (pyRound q2.2.2)))

/-- Identity gamma curve placeholder, used where gamma is disabled. -/
def idQ : ℚ → ℚ := fun v => v

/-- Gain vector permuted by the channel-order indices of the
configuration; the batch path of the source is equivalent to the
reference composition with this permuted gain vector. -/
def permuteGains (cfg : CorrectionCfg) : CorrectionCfg :=
  { cfg with
    gains := (selQ cfg.gains cfg.chIdx.1, selQ cfg.gains cfg.chIdx.2.1,
      selQ cfg.gains cfg.chIdx.2.2) }

/-- Configuration used to separate the two correction paths: order GRB
with a gain of 2 on the first pre-permutation channel, gamma absent. -/
def cfgCE : CorrectionCfg := ⟨none, (2, 1, 1), (1, 0, 2)⟩

/-- Configuration of end-to-end scenario five of the spec: order GRB,
unity gains, gamma absent. -/
def cfgGRB : CorrectionCfg := ⟨none, (1, 1, 1), (1, 0, 2)⟩

/-! ## DDP frame assembly (DdpBridge) -/

/-- Embedding of DdpBridge.FrameState: byte buffer, per-byte coverage
map, missing-byte counter, chunk counter, identity, push flag and
timestamps. Bytes are naturals, senders are abstracted to naturals, and
timestamps are rationals. -/
structure FrameState where
  buf : List ℕ
  received : List Bool
  missing : ℕ
  chunks : ℕ
  sender : ℕ
  seq : ℕ
  sawEof : Bool
  startTs : ℚ
  lastUpdateTs : ℚ
deriving DecidableEq

/-- Fresh FrameState as built by the FrameState constructor: zero
buffer, no coverage, all bytes missing. -/
def FrameState.mk0 (frameSize sender seq : ℕ) (now : ℚ) : FrameState :=
  { buf := List.replicate frameSize 0
    received := List.replicate frameSize false
    missing := frameSize
    chunks := 0
    sender := sender
    seq := seq
    sawEof := false
    startTs := now
    lastUpdateTs := now }

/-- Embedding of FrameState.add_chunk: copy the payload into the buffer
slice, count the not yet covered bytes of the slice, mark the slice
covered, and decrement missing by the newly covered count. -/
def FrameState.addChunk (s : FrameState) (off : ℕ) (payload : List ℕ) (now : ℚ) : FrameState :=
  let len := payload.length
  let seg := (s.received.drop off).take len
  let newly := seg.countP (fun b => !b)
  { s with
    buf := s.buf.take off ++ payload ++ s.buf.drop (off + len)
    received := s.received.take off ++ List.replicate len true ++ s.received.drop (off + len)
    missing := s.missing - newly
    chunks := s.chunks + 1
    lastUpdateTs := now }

/-- Embedding of FrameState.complete: missing equals zero and the push
flag has been seen. -/
def FrameState.complete (s : FrameState) : Bool :=
  s.missing == 0 && s.sawEof

/-- Set the end-of-frame flag when the packet carried the PUSH bit. -/
def setPush (f : FrameState) (push : Bool) : FrameState :=
  if push then { f with sawEof := true } else f

/-- A parsed DDP chunk after the header checks of the receive loop:
sender, sequence, byte offset, payload whose length equals the declared
length field, and the PUSH bit. -/
structure Chunk where
  sender : ℕ
  seq : ℕ
  off : ℕ
  payload : List ℕ
  push : Bool
deriving DecidableEq

/-- State of the bridge loop: configuration constants, the active-frame
table in dict insertion order, the bounded completed queue in arrival
order, the telemetry counters the claims mention, and the last frame
handed to the overlay writer. -/
structure BridgeState where
  frameSize : ℕ
  maxActive : ℕ
  completedCap : ℕ
  framesMap : List ((ℕ × ℕ) × FrameState)
  completed : List FrameState
  framesWritten : ℕ
  framesDropped : ℕ
  secFramesIn : ℕ
  secFramesOut : ℕ
  secDropped : ℕ
  secIncomplete : ℕ
  lastWritten : Option FrameState
  lastWriteTs : ℚ
deriving DecidableEq

/-- Bridge state immediately after DdpBridge construction: empty table
and queue, cap constants 12 and 50 from the source, zero counters. -/
def BridgeState.init (width height : ℕ) : BridgeState :=
  { frameSize := width * height * 3
    maxActive := 12
    completedCap := 50
    framesMap := []
    completed := []
    framesWritten := 0
    framesDropped := 0
    secFramesIn := 0
    secFramesOut := 0
    secDropped := 0
    secIncomplete := 0
    lastWritten := none
    lastWriteTs := 0 }

/-- Lookup in the active table by key, dict style. -/
def lookupKey (m : List ((ℕ × ℕ) × FrameState)) (k : ℕ × ℕ) : Option FrameState :=
  (m.find? (fun e => decide (e.1 = k))).map Prod.snd

/-- First entry with minimal start timestamp, the entry Python min with a
start time key selects over the dict items. -/
def minByStartTs (m : List ((ℕ × ℕ) × FrameState)) : Option ((ℕ × ℕ) × FrameState) :=
  match m with
  | [] => none
  | x :: xs => some (xs.foldl (fun acc y => if y.2.startTs < acc.2.startTs then y else acc) x)

/-- Append to the bounded completed deque: when the queue is at its max
length, the deque discards from the left to make room. -/
def dequeAppend (cap : ℕ) (q : List FrameState) (f : FrameState) : List FrameState :=
  if q.length < cap then q ++ [f] else (q.drop (q.length + 1 - cap)) ++ [f]

/-- Lookup-or-insert step of the receive loop: when the key is absent,
evict the entry with the oldest start time if the table is at the cap,
counting it incomplete, then insert a fresh FrameState for the key. -/
def ensureKey (now : ℚ) (c : Chunk) (s : BridgeState) : BridgeState :=
  if (lookupKey s.framesMap (c.sender, c.seq)).isSome then s
  else
    let s2 :=
      if s.maxActive ≤ s.framesMap.length then
        match minByStartTs s.framesMap with
        | some old =>
            { s with
              framesMap := s.framesMap.eraseP (fun e => decide (e.1 = old.1))
              secIncomplete := s.secIncomplete + 1 }
        | none => s
      else s
    { s2 with
      framesMap :=
        s2.framesMap ++ [((c.sender, c.seq), FrameState.mk0 s.frameSize c.sender c.seq now)] }

/-- Per-chunk step of the receive loop of DdpBridge.run: ensure a
FrameState for the key, reject the chunk when the end of its byte range
exceeds the frame size, otherwise add the chunk, record PUSH, and on
completion move the frame from the active table to the completed queue.
The once-per-second telemetry rollover of the source, which only moves
the per-second counters into lifetime totals, is not modelled. -/
def processChunk (now : ℚ) (c : Chunk) (s : BridgeState) : BridgeState :=
  let key := (c.sender, c.seq)
  let s1 := ensureKey now c s
  match lookupKey s1.framesMap key with
  | none => s1
  | some frame =>
    if s1.frameSize < c.off + c.payload.length then s1
    else
      let frame2 := setPush (frame.addChunk c.off c.payload now) c.push
      if frame2.complete then
        { s1 with
          framesMap := s1.framesMap.eraseP (fun e => decide (e.1 = key))
          completed := dequeAppend s1.completedCap s1.completed frame2
          secFramesIn := s1.secFramesIn + 1 }
      else
        { s1 with
          framesMap := s1.framesMap.map (fun e => if e.1 = key then (key, frame2) else e) }

/-- Timeout scan of the loop: remove every active frame older than the
timeout and count each as incomplete. Ages are compared in milliseconds
as in the source. -/
def expireFrames (now timeoutMs : ℚ) (s : BridgeState) : BridgeState :=
  { s with
    framesMap := s.framesMap.filter (fun e => decide ((now - e.2.startTs) * 1000 ≤ timeoutMs))
    secIncomplete :=
      s.secIncomplete +
        (s.framesMap.filter (fun e => decide (timeoutMs < (now - e.2.startTs) * 1000))).length }

/-- Writer side of the loop body: when the completed queue is nonempty,
pop the newest frame, count and discard all older queued frames, write
the popped frame to the overlay writer, bump the write counters and set
the last write timestamp to the post-write instant. -/
def writerDrain (now : ℚ) (s : BridgeState) : BridgeState :=
  match s.completed.getLast? with
  | none => s
  | some latest =>
      let rest := s.completed.dropLast
      { s with
        completed := []
        framesDropped := s.framesDropped + rest.length
        secDropped := s.secDropped + rest.length
        framesWritten := s.framesWritten + 1
        secFramesOut := s.secFramesOut + 1
        lastWritten := some latest
        lastWriteTs := now }

/-- Pacing computation before the write, from the loop: with pacing
enabled, treat a zero last write timestamp as one interval ago, and when
the time since the last write is short of the minimum interval sleep for
the remainder, but only when the remainder exceeds half a millisecond. -/
def pacingSleep (maxFps lastWriteTs nowPerf : ℚ) : ℚ :=
  if 0 < maxFps then
    let minInterval := 1 / maxFps
    let last := if lastWriteTs = 0 then nowPerf - minInterval else lastWriteTs
    let sinceLast := nowPerf - last
    if sinceLast < minInterval then
      let remaining := minInterval - sinceLast
      if 1 / 2000 < remaining then remaining else 0
    else 0
  else 0

/-- Table invariant: every active frame is incomplete, every queued
completed frame is complete, and the keys of the active table are
distinct as in a dict. -/
def GoodState (s : BridgeState) : Prop :=
  (∀ e ∈ s.framesMap, e.2.complete = false) ∧
    (∀ f ∈ s.completed, f.complete = true) ∧
    (s.framesMap.map Prod.fst).Nodup

/-! ## Routing table (light wall mapping and FPPOutput build step) -/

/-- Mapping loaded from the CSV: physical grid cell to LED index. -/
abbrev Mapping := List ((ℕ × ℕ) × ℕ)

/-- Dict lookup in the mapping. -/
def lookupMapping (m : Mapping) (k : ℕ × ℕ) : Option ℕ :=
  (m.find? (fun e => decide (e.1 = k))).map Prod.snd

/-- Fallback mapping built by load_light_wall_mapping when the CSV file
is absent: 4500 entries laying pixels row major over a 90-wide grid. -/
def fileNotFoundFallback : Mapping :=
  (List.range 4500).map (fun p => ((p / 90, p % 90), p))

/-- Destination and source index pairs collected by the routing loop of
FPPOutput._build_routing_table: for each visual cell, stagger the
physical row by column parity, clamp rows beyond 98 to 97, and keep the
cell when the mapping holds an LED index below 4500. -/
def routingPairs (height width : ℕ) (mapping : Mapping) : List (ℕ × ℕ) :=
  (List.range height).flatMap (fun vr =>
    (List.range width).filterMap (fun vc =>
      let pr0 := if vc % 2 = 0 then vr * 2 else vr * 2 + 1
      let pr := if 98 < pr0 then 97 else pr0
      match lookupMapping mapping (pr, vc) with
      | some idx => if idx < 4500 then some (idx, vr * width + vc) else none
      | none => none))

/-- Fast routing arrays produced by FPPOutput._build_routing_table under
numpy: none models the early return on an empty mapping, which leaves
the fast arrays unset; a nonempty mapping yields either the collected
pairs or, when they are empty, the linear arange fallback. -/
def buildRoutingTable (height width : ℕ) (mapping : Mapping) :
    Option (List ℕ × List ℕ) :=
  if mapping = [] then none
  else
    let pairs := routingPairs height width mapping
    if pairs ≠ [] then some (pairs.map Prod.fst, pairs.map Prod.snd)
    else some (List.range (width * height), List.range (width * height))

/-! ## Overlay writer (FPPOutput.write, numpy fast path) -/

/-- Writer state: the internal byte buffer, the fast routing arrays, the
bytes of the mmap region, and the correction configuration. -/
structure Writer where
  buffer : List ℕ
  fastDest : List ℕ
  fastSrc : List ℕ
  mmapData : List ℕ
  cfg : CorrectionCfg

/-- Gather of the source pixels selected by the source index array. -/
def gatherPix (frame : List (ℕ × ℕ × ℕ)) (src : List ℕ) : List (ℕ × ℕ × ℕ) :=
  src.map (fun i => frame.getD i (0, 0, 0))

/-- Scatter of corrected pixels to byte positions three times the
destination index, sequentially so that a later duplicate wins. -/
def scatterPix : List ℕ → List ℕ → List (ℕ × ℕ × ℕ) → List ℕ
  | buf, [], _ => buf
  | buf, _ :: _, [] => buf
  | buf, d :: ds, p :: ps =>
      scatterPix (((buf.set (d * 3) p.1).set (d * 3 + 1) p.2.1).set (d * 3 + 2) p.2.2) ds ps

/-- Embedding of the numpy fast path of FPPOutput.write: gather the
routed source pixels, correct them, scatter into the internal buffer,
then copy the whole buffer to the mmap region. -/
def Writer.write (w : Writer) (gcurve : ℚ → ℚ) (frame : List (ℕ × ℕ × ℕ)) : Writer :=
  let selected := gatherPix frame w.fastSrc
  let corrected := applyCorrectionNumpy w.cfg gcurve selected
  let buf2 := scatterPix w.buffer w.fastDest corrected
  { w with buffer := buf2, mmapData := buf2 }

/-! ## Concrete fixtures for witnesses and counterexamples -/

/-- Placeholder frame used to fill queues in concrete states. -/
def frameOld : FrameState := FrameState.mk0 3 9 9 0

/-- Complete frame with a given sequence number over a 3-byte frame. -/
def frameSeq (n : ℕ) : FrameState :=
  setPush ((FrameState.mk0 3 0 n 0).addChunk 0 [1, 2, 3] 0) true

/-- Single-packet chunk carrying a whole 3-byte frame with PUSH. -/
def chunkFull : Chunk := ⟨0, 0, 0, [1, 2, 3], true⟩

/-- Bridge state with the completed queue at its capacity of 50. -/
def stateFullQueue : BridgeState :=
  { BridgeState.init 1 1 with completed := List.replicate 50 frameOld }

/-- Bridge state whose completed queue holds the complete frames with
sequence numbers 10, 11 and 12 in arrival order. -/
def stateBacklog : BridgeState :=
  { BridgeState.init 1 1 with completed := [frameSeq 10, frameSeq 11, frameSeq 12] }

/-- Bridge state with one active frame for the key (0,0) and the
completed queue at its capacity of 50. -/
def stateActive : BridgeState :=
  { BridgeState.init 1 1 with
    framesMap := [((0, 0), FrameState.mk0 3 0 0 0)]
    completed := List.replicate 50 frameOld }

/-- Writer fixture with a 12-byte buffer and one routed LED. -/
def writerCE : Writer :=
  { buffer := List.replicate 12 7
    fastDest := [1]
    fastSrc := [0]
    mmapData := List.replicate 12 0
    cfg := cfgGRB }

/-! ## Helper lemmas -/

set_option maxHeartbeats 1000000

set_option maxRecDepth 4000

theorem selQ_unity (i : Fin 3) : selQ (1, 1, 1) i = 1 := by
  fin_cases i <;> rfl

theorem floorClamp_natCast (n : ℕ) (h : n ≤ 255) : floorClamp (n : ℚ) = n := by
  have h255 : ((n : ℚ)) ≤ 255 := by exact_mod_cast h
  have h0 : (0 : ℚ) ≤ (n : ℚ) := by positivity
  rw [floorClamp, clampQ, min_eq_right h255, max_eq_right h0, Int.floor_natCast]
  exact Int.toNat_natCast n

theorem pyRound_intCast (k : ℤ) : pyRound (k : ℚ) = k := by
  rw [pyRound, Int.fract_intCast]
  norm_num [round_intCast]

theorem selZ_bounds (r g b : ℤ) (i : Fin 3) (hr0 : 0 ≤ r) (hr : r ≤ 255) (hg0 : 0 ≤ g)
    (hg : g ≤ 255) (hb0 : 0 ≤ b) (hb : b ≤ 255) :
    0 ≤ selZ (r, g, b) i ∧ selZ (r, g, b) i ≤ 255 := by
  fin_cases i <;> simp [selZ] <;> omega

theorem applyCorrectionNumpyPix_eq (cfg : CorrectionCfg) (gcurve : ℚ → ℚ) (p : ℕ × ℕ × ℕ)
    (h1 : p.1 ≤ 255) (h2 : p.2.1 ≤ 255) (h3 : p.2.2 ≤ 255) :
    applyCorrectionNumpyPix cfg gcurve p =
      refCorrectionPix (permuteGains cfg) gcurve p := by
  obtain ⟨γ, ⟨g1, g2, g3⟩, ⟨i0, i1, i2⟩⟩ := cfg
  obtain ⟨p1, p2, p3⟩ := p
  simp only at h1 h2 h3
  fin_cases i0 <;> fin_cases i1 <;> fin_cases i2 <;>
    simp only [applyCorrectionNumpyPix, refCorrectionPix, permuteGains, selN, selQ, stageQ,
      Matrix.cons_val_zero, Matrix.cons_val_one, Matrix.head_cons, Matrix.cons_val_two,
      Matrix.tail_cons, ne_eq, Prod.mk.injEq] <;>
    split_ifs <;>
    simp_all [floorClamp_natCast, mul_one, gammaActive]

theorem applyCorrectionTuplePix_id_chIdx (γ : Option ℚ) (g1 g2 g3 : ℚ) (gcurve : ℚ → ℚ)
    (x y z : ℤ) (hx0 : 0 ≤ x) (hx : x ≤ 255) (hy0 : 0 ≤ y) (hy : y ≤ 255) (hz0 : 0 ≤ z)
    (hz : z ≤ 255) :
    applyCorrectionTuplePix ⟨γ, (g1, g2, g3), (0, 1, 2)⟩ gcurve x y z =
      refCorrectionRoundPix ⟨γ, (g1, g2, g3), (0, 1, 2)⟩ gcurve x y z := by
  by_cases hM : ((g1, g2, g3) : ℚ × ℚ × ℚ) ≠ (1, 1, 1) ∨ gammaActive γ = true
  · simp only [applyCorrectionTuplePix, refCorrectionRoundPix, if_pos hM]
    by_cases hγ : gammaActive γ = true <;>
      simp [stageQ, hγ, selZ]
  · simp only [applyCorrectionTuplePix, refCorrectionRoundPix, if_neg hM]
    push_neg at hM
    obtain ⟨hgains, hγ⟩ := hM
    rw [Prod.ext_iff, Prod.ext_iff] at hgains
    obtain ⟨rfl, rfl, rfl⟩ := hgains
    have hγ2 : gammaActive γ = false := by
      cases h : gammaActive γ
      · rfl
      · exact absurd h hγ
    simp [stageQ, hγ2, mul_one, pyRound_intCast, selZ]
    omega

theorem applyCorrectionTuplePix_perm (γ : Option ℚ) (gains : ℚ × ℚ × ℚ)
    (i0 i1 i2 : Fin 3) (gcurve : ℚ → ℚ) (r g b : ℤ) :
    applyCorrectionTuplePix ⟨γ, gains, (i0, i1, i2)⟩ gcurve r g b =
      applyCorrectionTuplePix ⟨γ, gains, (0, 1, 2)⟩ gcurve (selZ (r, g, b) i0)
        (selZ (r, g, b) i1) (selZ (r, g, b) i2) := by
  by_cases hch : ((i0, i1, i2) : Fin 3 × Fin 3 × Fin 3) = (0, 1, 2)
  · rw [Prod.ext_iff, Prod.ext_iff] at hch
    obtain ⟨rfl, rfl, rfl⟩ := hch
    rfl
  · simp only [applyCorrectionTuplePix, if_pos hch, ne_eq, not_true_eq_false,
      if_neg, ite_false, not_false_eq_true, if_pos]
    rfl

theorem refCorrectionRoundPix_perm (γ : Option ℚ) (gains : ℚ × ℚ × ℚ)
    (i0 i1 i2 : Fin 3) (gcurve : ℚ → ℚ) (r g b : ℤ) :
    refCorrectionRoundPix ⟨γ, gains, (i0, i1, i2)⟩ gcurve r g b =
      refCorrectionRoundPix ⟨γ, gains, (0, 1, 2)⟩ gcurve (selZ (r, g, b) i0)
        (selZ (r, g, b) i1) (selZ (r, g, b) i2) := by
  rfl

theorem applyCorrectionTuplePix_eq (cfg : CorrectionCfg) (gcurve : ℚ → ℚ) (r g b : ℤ)
    (hr0 : 0 ≤ r) (hr : r ≤ 255) (hg0 : 0 ≤ g) (hg : g ≤ 255) (hb0 : 0 ≤ b) (hb : b ≤ 255) :
    applyCorrectionTuplePix cfg gcurve r g b = refCorrectionRoundPix cfg gcurve r g b := by
  obtain ⟨γ, ⟨g1, g2, g3⟩, ⟨i0, i1, i2⟩⟩ := cfg
  obtain ⟨hx0, hx⟩ := selZ_bounds r g b i0 hr0 hr hg0 hg hb0 hb
  obtain ⟨hy0, hy⟩ := selZ_bounds r g b i1 hr0 hr hg0 hg hb0 hb
  obtain ⟨hz0, hz⟩ := selZ_bounds r g b i2 hr0 hr hg0 hg hb0 hb
  rw [applyCorrectionTuplePix_perm, refCorrectionRoundPix_perm]
  exact applyCorrectionTuplePix_id_chIdx γ g1 g2 g3 gcurve _ _ _ hx0 hx hy0 hy hz0 hz

/-! ## Claim C1 -/

/-- C1: counterexample. With channel order GRB, gains (2,1,1) and no
gamma, the batch correction path of the writer does not equal the
reference composition permute, gain, gamma, clamp of the claim on the
single-pixel batch (10,20,30): the writer yields (20,20,30) because it
applies the gains before the permutation, while the reference yields
(40,10,30). -/
theorem C1_counterexample :
    applyCorrectionNumpy cfgCE idQ [(10, 20, 30)] ≠
      refCorrection cfgCE idQ [(10, 20, 30)] := by
  have hL : applyCorrectionNumpy cfgCE idQ [(10, 20, 30)] = [(20, 20, 30)] := by
    simp only [applyCorrectionNumpy, applyCorrectionNumpyPix, cfgCE, gammaActive, floorClamp,
      clampQ, selN, selQ, stageQ, idQ, List.map]
    norm_num
    decide
  have hR : refCorrection cfgCE idQ [(10, 20, 30)] = [(40, 10, 30)] := by
    simp only [refCorrection, refCorrectionPix, cfgCE, gammaActive, floorClamp,
      clampQ, selN, selQ, stageQ, idQ, List.map]
    norm_num
    decide
  rw [hL, hR]
  decide

/-- C1: amended. For byte-valued pixels, the batch correction path of
the writer equals the reference composition permute, gain, gamma, clamp
with the gain vector permuted by the channel order, that is, the batch
path applies the gains and gamma in the pre-permutation channel
positions and permutes last; the per-pixel tuple path applies the steps
in the claimed order permute, gain, gamma, but casts by rounding half to
even before clamping rather than truncating after clamping. The two
statements coincide with the claim exactly when the gains are uniform
and truncation versus rounding is immaterial. -/
theorem C1_amended :
    (∀ (cfg : CorrectionCfg) (gcurve : ℚ → ℚ) (batch : List (ℕ × ℕ × ℕ)),
        (∀ p ∈ batch, p.1 ≤ 255 ∧ p.2.1 ≤ 255 ∧ p.2.2 ≤ 255) →
          applyCorrectionNumpy cfg gcurve batch =
            refCorrection (permuteGains cfg) gcurve batch) ∧
      (∀ (cfg : CorrectionCfg) (gcurve : ℚ → ℚ) (r g b : ℤ),
          0 ≤ r → r ≤ 255 → 0 ≤ g → g ≤ 255 → 0 ≤ b → b ≤ 255 →
            applyCorrectionTuplePix cfg gcurve r g b =
              refCorrectionRoundPix cfg gcurve r g b) := by
  constructor
  · intro cfg gcurve batch hb
    simp only [applyCorrectionNumpy, refCorrection]
    refine List.map_congr_left ?_
    intro p hp
    obtain ⟨h1, h2, h3⟩ := hb p hp
    exact applyCorrectionNumpyPix_eq cfg gcurve p h1 h2 h3
  · intro cfg gcurve r g b hr0 hr hg0 hg hb0 hb
    exact applyCorrectionTuplePix_eq cfg gcurve r g b hr0 hr hg0 hg hb0 hb

/-- C1: witness instantiating the amended theorem at the GRB scenario of
the spec on the batch (10,20,30) and the same pixel through the tuple
path. -/
theorem C1_witness :
    applyCorrectionNumpy cfgGRB idQ [(10, 20, 30)] =
        refCorrection (permuteGains cfgGRB) idQ [(10, 20, 30)] ∧
      applyCorrectionTuplePix cfgGRB idQ 10 20 30 =
        refCorrectionRoundPix cfgGRB idQ 10 20 30 :=
  ⟨C1_amended.1 cfgGRB idQ [(10, 20, 30)] (by decide),
    C1_amended.2 cfgGRB idQ 10 20 30 (by decide) (by decide) (by decide) (by decide)
      (by decide) (by decide)⟩

theorem seg_restore {α : Type} (l : List α) (off n : ℕ) :
    l.take off ++ ((l.drop off).take n ++ l.drop (off + n)) = l := by
  rw [← List.drop_drop]
  rw [List.take_append_drop n (l.drop off)]
  exact List.take_append_drop off l

theorem addChunk_missing_of_covered (s : FrameState) (off : ℕ) (payload : List ℕ) (now : ℚ)
    (hcov : ∀ b ∈ (s.received.drop off).take payload.length, b = true) :
    (s.addChunk off payload now).missing = s.missing := by
  have h0 : ((s.received.drop off).take payload.length).countP (fun b => !b) = 0 := by
    rw [List.countP_eq_zero]
    intro a ha
    simp [hcov a ha]
  simp only [FrameState.addChunk, h0, Nat.sub_zero]

theorem addChunk_buf_of_eq (s : FrameState) (off : ℕ) (payload : List ℕ) (now : ℚ)
    (hpay : payload = (s.buf.drop off).take payload.length) :
    (s.addChunk off payload now).buf = s.buf := by
  obtain ⟨n, hn⟩ : ∃ n, payload.length = n := ⟨_, rfl⟩
  simp only [FrameState.addChunk, hn]
  rw [hn] at hpay
  rw [List.append_assoc, hpay]
  exact seg_restore s.buf off n

theorem addChunk_slice_buf (s : FrameState) (off : ℕ) (payload : List ℕ) (now : ℚ)
    (hb : off + payload.length ≤ s.buf.length) :
    (((s.addChunk off payload now).buf.drop off).take payload.length) = payload := by
  simp only [FrameState.addChunk]
  rw [List.append_assoc]
  rw [List.drop_left' (by simp; omega)]
  exact List.take_left' rfl

theorem addChunk_slice_received (s : FrameState) (off : ℕ) (payload : List ℕ) (now : ℚ)
    (hr : off + payload.length ≤ s.received.length) :
    (((s.addChunk off payload now).received.drop off).take payload.length) =
      List.replicate payload.length true := by
  simp only [FrameState.addChunk]
  rw [List.append_assoc]
  rw [List.drop_left' (by simp; omega)]
  exact List.take_left' (by simp)

/-- C3: a chunk whose byte range is already fully covered and whose
payload matches the buffer contents leaves missing and the buffer
unchanged; consequently re-sending the same chunk immediately after a
first send changes neither missing nor the buffer. -/
theorem C3_duplicate_idempotent :
    (∀ (s : FrameState) (off : ℕ) (payload : List ℕ) (now : ℚ),
        payload = (s.buf.drop off).take payload.length →
        (∀ b ∈ (s.received.drop off).take payload.length, b = true) →
          (s.addChunk off payload now).missing = s.missing ∧
            (s.addChunk off payload now).buf = s.buf) ∧
      (∀ (s : FrameState) (off : ℕ) (payload : List ℕ) (now now2 : ℚ),
          off + payload.length ≤ s.buf.length → off + payload.length ≤ s.received.length →
            ((s.addChunk off payload now).addChunk off payload now2).missing =
                (s.addChunk off payload now).missing ∧
              ((s.addChunk off payload now).addChunk off payload now2).buf =
                (s.addChunk off payload now).buf) := by
  constructor
  · intro s off payload now hpay hcov
    exact ⟨addChunk_missing_of_covered s off payload now hcov,
      addChunk_buf_of_eq s off payload now hpay⟩
  · intro s off payload now now2 hb hr
    refine ⟨addChunk_missing_of_covered _ off payload now2 ?_,
      addChunk_buf_of_eq _ off payload now2 ?_⟩
    · rw [addChunk_slice_received s off payload now hr]
      intro b hb2
      exact List.eq_of_mem_replicate hb2
    · rw [addChunk_slice_buf s off payload now hb]

/-- C3: witness at a concrete frame: the 3-byte frame that already holds
the chunk at offset 0 is unchanged by the duplicate. -/
theorem C3_witness :
    (((FrameState.mk0 3 0 0 0).addChunk 0 [1, 2, 3] 0).addChunk 0 [1, 2, 3] 0).missing =
        ((FrameState.mk0 3 0 0 0).addChunk 0 [1, 2, 3] 0).missing ∧
      (((FrameState.mk0 3 0 0 0).addChunk 0 [1, 2, 3] 0).addChunk 0 [1, 2, 3] 0).buf =
        ((FrameState.mk0 3 0 0 0).addChunk 0 [1, 2, 3] 0).buf :=
  C3_duplicate_idempotent.2 (FrameState.mk0 3 0 0 0) 0 [1, 2, 3] 0 0 (by decide) (by decide)

/-- C2: whenever the writer step runs with a nonempty completed queue,
the newest frame is the one written, every older queued frame is
discarded with the drop counters increased by their number, the frames
written counters increase by one, and the queue is left empty. -/
theorem C2_latest_wins :
    ∀ (s : BridgeState) (now : ℚ) (h : s.completed ≠ []),
      (writerDrain now s).lastWritten = some (s.completed.getLast h) ∧
        (writerDrain now s).framesDropped = s.framesDropped + (s.completed.length - 1) ∧
        (writerDrain now s).secDropped = s.secDropped + (s.completed.length - 1) ∧
        (writerDrain now s).framesWritten = s.framesWritten + 1 ∧
        (writerDrain now s).secFramesOut = s.secFramesOut + 1 ∧
        (writerDrain now s).completed = [] := by
  intro s now h
  simp only [writerDrain, List.getLast?_eq_getLast s.completed h, List.length_dropLast]
  simp

/-- C2: witness at the scenario of the spec: with complete frames of
sequences 10, 11, 12 queued in one interval, the next write carries the
frame of sequence 12 while the drop counter rises by 2 and the frames
out counter by 1. -/
theorem C2_witness :
    (writerDrain 1 stateBacklog).lastWritten = some (frameSeq 12) ∧
      (writerDrain 1 stateBacklog).framesDropped = 2 ∧
      (writerDrain 1 stateBacklog).secFramesOut = 1 := by
  obtain ⟨h1, h2, h3, h4, h5, h6⟩ := C2_latest_wins stateBacklog 1 (by decide)
  refine ⟨?_, ?_, ?_⟩
  · rw [h1]; decide
  · rw [h2]; decide
  · rw [h5]; decide

/-- C8: the pacing arithmetic of the loop guarantees that, with pacing
at f frames per second and the previous write completed at the last
write timestamp, the next write completes no earlier than one interval
minus half a millisecond after the previous one, and half a millisecond
is below the one millisecond tolerance of the claim; sleeps are modelled
as advancing the clock by the requested amount and the write duration is
nonnegative. -/
theorem C8_pacing_interval :
    ∀ (f last now writeDur : ℚ), 0 < f → last ≠ 0 → last ≤ now → 0 ≤ writeDur →
      1 / f - 1 / 2000 ≤ now + pacingSleep f last now + writeDur - last ∧
        (1 / 2000 : ℚ) < 1 / 1000 := by
  intro f last now wd hf hlast hle hwd
  constructor
  · simp only [pacingSleep, if_pos hf, if_neg hlast]
    split_ifs with h1 h2
    · linarith
    · push_neg at h2
      linarith
    · push_neg at h1
      linarith
  · norm_num

/-- C8: witness with pacing at 20 fps, previous completion at time 1 and
the clock also at 1: the computed schedule satisfies the bound. -/
theorem C8_witness :
    1 / 20 - 1 / 2000 ≤ 1 + pacingSleep 20 1 1 + 0 - 1 ∧ (1 / 2000 : ℚ) < 1 / 1000 :=
  C8_pacing_interval 20 1 1 0 (by norm_num) (by norm_num) (by norm_num) (by norm_num)

theorem mem_of_lookupKey {m : List ((ℕ × ℕ) × FrameState)} {k : ℕ × ℕ} {f : FrameState}
    (h : lookupKey m k = some f) : (k, f) ∈ m := by
  rw [lookupKey] at h
  cases hf : m.find? (fun e => decide (e.1 = k)) with
  | none => rw [hf] at h; cases h
  | some e =>
      rw [hf] at h
      have he2 : e.2 = f := by simpa using h
      have hmem := List.mem_of_find?_eq_some hf
      have hpred := List.find?_some hf
      have he1 : e.1 = k := of_decide_eq_true hpred
      have he : e = (k, f) := by
        cases e
        simp only [Prod.mk.injEq]
        exact ⟨he1, he2⟩
      rwa [he] at hmem

theorem lookupKey_eq_none {m : List ((ℕ × ℕ) × FrameState)} {k : ℕ × ℕ} :
    lookupKey m k = none ↔ ∀ e ∈ m, e.1 ≠ k := by
  rw [lookupKey]
  simp [List.find?_eq_none]

theorem foldlMin_mem (xs : List ((ℕ × ℕ) × FrameState)) :
    ∀ x, (xs.foldl (fun acc y => if y.2.startTs < acc.2.startTs then y else acc) x) ∈ x :: xs := by
  induction xs with
  | nil => intro x; simp
  | cons y ys ih =>
      intro x
      simp only [List.foldl_cons]
      by_cases hc : y.2.startTs < x.2.startTs
      · rw [if_pos hc]
        rcases List.mem_cons.1 (ih y) with h1 | h1
        · rw [h1]
          exact List.mem_cons_of_mem _ (List.mem_cons_self _ _)
        · exact List.mem_cons_of_mem _ (List.mem_cons_of_mem _ h1)
      · rw [if_neg hc]
        rcases List.mem_cons.1 (ih x) with h1 | h1
        · rw [h1]
          exact List.mem_cons_self _ _
        · exact List.mem_cons_of_mem _ (List.mem_cons_of_mem _ h1)

theorem foldlMin_le (xs : List ((ℕ × ℕ) × FrameState)) :
    ∀ x e, e ∈ x :: xs →
      (xs.foldl (fun acc y => if y.2.startTs < acc.2.startTs then y else acc) x).2.startTs ≤
        e.2.startTs := by
  induction xs with
  | nil =>
      intro x e he
      simp at he
      subst he
      exact le_refl _
  | cons y ys ih =>
      intro x e he
      simp only [List.foldl_cons]
      by_cases hc : y.2.startTs < x.2.startTs
      · rw [if_pos hc]
        have hzz := ih y y (List.mem_cons_self _ _)
        rcases List.mem_cons.1 he with rfl | he2
        · exact le_trans hzz (le_of_lt hc)
        · rcases List.mem_cons.1 he2 with rfl | he3
          · exact hzz
          · exact ih y e (List.mem_cons_of_mem _ he3)
      · rw [if_neg hc]
        push_neg at hc
        have hzz := ih x x (List.mem_cons_self _ _)
        rcases List.mem_cons.1 he with rfl | he2
        · exact hzz
        · rcases List.mem_cons.1 he2 with rfl | he3
          · exact le_trans hzz hc
          · exact ih x e (List.mem_cons_of_mem _ he3)

theorem minByStartTs_spec {m : List ((ℕ × ℕ) × FrameState)} (hm : m ≠ []) :
    ∃ old, minByStartTs m = some old ∧ old ∈ m ∧ ∀ e ∈ m, old.2.startTs ≤ e.2.startTs := by
  cases m with
  | nil => exact absurd rfl hm
  | cons x xs => exact ⟨_, rfl, foldlMin_mem xs x, foldlMin_le xs x⟩


theorem ensureKey_fields (now : ℚ) (c : Chunk) (s : BridgeState) :
    (ensureKey now c s).completed = s.completed ∧
      (ensureKey now c s).frameSize = s.frameSize ∧
      (ensureKey now c s).completedCap = s.completedCap ∧
      (ensureKey now c s).maxActive = s.maxActive ∧
      (ensureKey now c s).secFramesIn = s.secFramesIn ∧
      (ensureKey now c s).framesDropped = s.framesDropped ∧
      (ensureKey now c s).secDropped = s.secDropped ∧
      (ensureKey now c s).lastWritten = s.lastWritten := by
  rw [ensureKey]
  split
  · exact ⟨rfl, rfl, rfl, rfl, rfl, rfl, rfl, rfl⟩
  · split
    · split <;> exact ⟨rfl, rfl, rfl, rfl, rfl, rfl, rfl, rfl⟩
    · exact ⟨rfl, rfl, rfl, rfl, rfl, rfl, rfl, rfl⟩

theorem ensureKey_mem (now : ℚ) (c : Chunk) (s : BridgeState) :
    ∀ e ∈ (ensureKey now c s).framesMap,
      e ∈ s.framesMap ∨ e = ((c.sender, c.seq), FrameState.mk0 s.frameSize c.sender c.seq now) := by
  intro e he
  rw [ensureKey] at he
  split at he
  · exact Or.inl he
  · split at he
    · split at he
      · rcases List.mem_append.1 he with h1 | h1
        · exact Or.inl ((List.eraseP_sublist _).subset h1)
        · simp at h1
          exact Or.inr h1
      · rcases List.mem_append.1 he with h1 | h1
        · exact Or.inl h1
        · simp at h1
          exact Or.inr h1
    · rcases List.mem_append.1 he with h1 | h1
      · exact Or.inl h1
      · simp at h1
        exact Or.inr h1


theorem ensureKey_keys_nodup (now : ℚ) (c : Chunk) (s : BridgeState)
    (hnd : (s.framesMap.map Prod.fst).Nodup) :
    ((ensureKey now c s).framesMap.map Prod.fst).Nodup := by
  rw [ensureKey]
  split
  · exact hnd
  case isFalse hlk =>
    have hnone : lookupKey s.framesMap (c.sender, c.seq) = none := by
      cases h : lookupKey s.framesMap (c.sender, c.seq)
      · rfl
      · rw [h] at hlk
        simp at hlk
    have hnot : ∀ e ∈ s.framesMap, e.1 ≠ (c.sender, c.seq) := lookupKey_eq_none.1 hnone
    have step : ∀ m2 : List ((ℕ × ℕ) × FrameState), (m2.map Prod.fst).Nodup →
        (∀ e ∈ m2, e.1 ≠ (c.sender, c.seq)) →
        ((m2 ++ [((c.sender, c.seq), FrameState.mk0 s.frameSize c.sender c.seq now)]).map
            Prod.fst).Nodup := by
      intro m2 h1 h2
      rw [List.map_append, List.nodup_append]
      refine ⟨h1, by simp, ?_⟩
      intro a ha
      simp only [List.mem_map] at ha
      obtain ⟨e, he, rfl⟩ := ha
      simp only [List.map_cons, List.map_nil, List.mem_singleton]
      exact h2 e he
    split
    · split
      · exact step _ (hnd.sublist ((List.eraseP_sublist _).map Prod.fst))
          (fun e he => hnot e ((List.eraseP_sublist _).subset he))
      · exact step _ hnd hnot
    · exact step _ hnd hnot

theorem ensureKey_length (now : ℚ) (c : Chunk) (s : BridgeState) (hmax : 1 ≤ s.maxActive)
    (hlen : s.framesMap.length ≤ s.maxActive) :
    (ensureKey now c s).framesMap.length ≤ s.maxActive := by
  rw [ensureKey]
  split
  · exact hlen
  · split
    case isTrue hfull =>
      split
      case h_1 old heq =>
        have hold : old ∈ s.framesMap := by
          have hne : s.framesMap ≠ [] := by
            intro h
            rw [h] at heq
            cases heq
          obtain ⟨old2, hmin, hold2, _⟩ := minByStartTs_spec hne
          rw [heq] at hmin
          injection hmin with h2
          exact h2 ▸ hold2
        have herase := @List.length_eraseP_add_one _ (fun e => decide (e.1 = old.1)) s.framesMap old hold (decide_eq_true rfl)
        simp only [List.length_append, List.length_cons, List.length_nil]
        omega
      case h_2 heq =>
        have : s.framesMap = [] := by
          cases hm : s.framesMap with
          | nil => rfl
          | cons x xs =>
              rw [hm] at heq
              cases heq
        simp only [this, List.nil_append, List.length_cons, List.length_nil]
        omega
    case isFalse hfull =>
      simp only [List.length_append, List.length_cons, List.length_nil]
      omega

theorem lookupKey_append_self (m : List ((ℕ × ℕ) × FrameState)) (k : ℕ × ℕ) (f : FrameState)
    (hnot : ∀ e ∈ m, e.1 ≠ k) : lookupKey (m ++ [(k, f)]) k = some f := by
  rw [lookupKey, List.find?_append]
  have h1 : m.find? (fun e => decide (e.1 = k)) = none := by
    rw [List.find?_eq_none]
    intro x hx
    simpa using hnot x hx
  rw [h1]
  simp

theorem ensureKey_lookup (now : ℚ) (c : Chunk) (s : BridgeState) :
    ∃ f, lookupKey (ensureKey now c s).framesMap (c.sender, c.seq) = some f := by
  rw [ensureKey]
  split
  case isTrue h =>
    cases hl : lookupKey s.framesMap (c.sender, c.seq) with
    | none => rw [hl] at h; simp at h
    | some f => exact ⟨f, rfl⟩
  case isFalse hlk =>
    have hnone : lookupKey s.framesMap (c.sender, c.seq) = none := by
      cases h : lookupKey s.framesMap (c.sender, c.seq)
      · rfl
      · rw [h] at hlk
        simp at hlk
    have hnot : ∀ e ∈ s.framesMap, e.1 ≠ (c.sender, c.seq) := lookupKey_eq_none.1 hnone
    split
    · split
      · exact ⟨_, lookupKey_append_self _ _ _
          (fun e he => hnot e ((List.eraseP_sublist _).subset he))⟩
      · exact ⟨_, lookupKey_append_self _ _ _ hnot⟩
    · exact ⟨_, lookupKey_append_self _ _ _ hnot⟩

theorem ensureKey_evict (now : ℚ) (c : Chunk) (s : BridgeState)
    (hnone : lookupKey s.framesMap (c.sender, c.seq) = none)
    (hfull : s.maxActive ≤ s.framesMap.length) (hmax : 1 ≤ s.maxActive) :
    ∃ old ∈ s.framesMap, (∀ e ∈ s.framesMap, old.2.startTs ≤ e.2.startTs) ∧
      (ensureKey now c s).framesMap =
        s.framesMap.eraseP (fun e => decide (e.1 = old.1)) ++
          [((c.sender, c.seq), FrameState.mk0 s.frameSize c.sender c.seq now)] ∧
      (ensureKey now c s).secIncomplete = s.secIncomplete + 1 := by
  have hne : s.framesMap ≠ [] := by
    intro h
    rw [h] at hfull
    simp at hfull
    omega
  obtain ⟨old, hmin, hold, hle⟩ := minByStartTs_spec hne
  refine ⟨old, hold, hle, ?_, ?_⟩ <;>
    rw [ensureKey, hnone] <;>
    simp only [Option.isSome_none, Bool.false_eq_true, if_false, if_pos hfull, hmin]


theorem mem_dequeAppend {cap : ℕ} {q : List FrameState} {f x : FrameState}
    (hx : x ∈ dequeAppend cap q f) : x ∈ q ∨ x = f := by
  rw [dequeAppend] at hx
  split_ifs at hx
  · rcases List.mem_append.1 hx with h | h
    · exact Or.inl h
    · simp at h
      exact Or.inr h
  · rcases List.mem_append.1 hx with h | h
    · exact Or.inl (List.mem_of_mem_drop h)
    · simp at h
      exact Or.inr h

theorem keys_update (m : List ((ℕ × ℕ) × FrameState)) (k : ℕ × ℕ) (f2 : FrameState) :
    ((m.map (fun e => if e.1 = k then (k, f2) else e)).map Prod.fst) = m.map Prod.fst := by
  rw [List.map_map]
  refine List.map_congr_left ?_
  intro e he
  simp only [Function.comp_apply]
  split_ifs with h
  · exact h.symm
  · rfl

theorem lookupKey_eraseP_self (m : List ((ℕ × ℕ) × FrameState)) (k : ℕ × ℕ)
    (hnd : (m.map Prod.fst).Nodup) :
    lookupKey (m.eraseP (fun e => decide (e.1 = k))) k = none := by
  induction m with
  | nil => rfl
  | cons e m ih =>
      simp only [List.map_cons, List.nodup_cons] at hnd
      by_cases he : e.1 = k
      · rw [@List.eraseP_cons_of_pos _ e m (fun x => decide (x.1 = k)) (decide_eq_true he)]
        rw [lookupKey_eq_none]
        intro x hx hxk
        exact hnd.1 (by
          rw [he, ← hxk]
          exact List.mem_map.2 ⟨x, hx, rfl⟩)
      · rw [@List.eraseP_cons_of_neg _ e m (fun x => decide (x.1 = k)) (by simpa using he)]
        rw [lookupKey] at *
        rw [List.find?_cons_of_neg _ (by simpa using he)]
        exact ih hnd.2

theorem setPush_buf (f : FrameState) (push : Bool) : (setPush f push).buf = f.buf := by
  rw [setPush]
  split <;> rfl

theorem mk0_complete (frameSize sender seq : ℕ) (now : ℚ) :
    (FrameState.mk0 frameSize sender seq now).complete = false := by
  simp [FrameState.mk0, FrameState.complete]

theorem addChunk_buf_getElem (s : FrameState) (off : ℕ) (payload : List ℕ) (now : ℚ)
    (hb : off + payload.length ≤ s.buf.length) (j : ℕ) (hj : j < payload.length) :
    (s.addChunk off payload now).buf[off + j]? = payload[j]? := by
  have hs := addChunk_slice_buf s off payload now hb
  have h1 : (((s.addChunk off payload now).buf.drop off).take payload.length)[j]? =
      ((s.addChunk off payload now).buf.drop off)[j]? := by
    rw [List.getElem?_take]
    exact if_pos hj
  rw [← List.getElem?_drop, ← h1, hs]


theorem processChunk_eq_of_lookup_none (now : ℚ) (c : Chunk) (s : BridgeState)
    (hl : lookupKey (ensureKey now c s).framesMap (c.sender, c.seq) = none) :
    processChunk now c s = ensureKey now c s := by
  simp only [processChunk, hl]

theorem processChunk_eq_of_over (now : ℚ) (c : Chunk) (s : BridgeState) (f : FrameState)
    (hl : lookupKey (ensureKey now c s).framesMap (c.sender, c.seq) = some f)
    (hov : (ensureKey now c s).frameSize < c.off + c.payload.length) :
    processChunk now c s = ensureKey now c s := by
  simp only [processChunk, hl, if_pos hov]

theorem processChunk_eq_complete (now : ℚ) (c : Chunk) (s : BridgeState) (f : FrameState)
    (hl : lookupKey (ensureKey now c s).framesMap (c.sender, c.seq) = some f)
    (hov : ¬ (ensureKey now c s).frameSize < c.off + c.payload.length)
    (hcomp : (setPush (f.addChunk c.off c.payload now) c.push).complete = true) :
    processChunk now c s =
      { ensureKey now c s with
        framesMap :=
          (ensureKey now c s).framesMap.eraseP (fun e => decide (e.1 = (c.sender, c.seq)))
        completed :=
          dequeAppend (ensureKey now c s).completedCap (ensureKey now c s).completed
            (setPush (f.addChunk c.off c.payload now) c.push)
        secFramesIn := (ensureKey now c s).secFramesIn + 1 } := by
  simp only [processChunk, hl, if_neg hov, if_pos hcomp]

theorem processChunk_eq_incomplete (now : ℚ) (c : Chunk) (s : BridgeState) (f : FrameState)
    (hl : lookupKey (ensureKey now c s).framesMap (c.sender, c.seq) = some f)
    (hov : ¬ (ensureKey now c s).frameSize < c.off + c.payload.length)
    (hcomp : (setPush (f.addChunk c.off c.payload now) c.push).complete = false) :
    processChunk now c s =
      { ensureKey now c s with
        framesMap :=
          (ensureKey now c s).framesMap.map
            (fun e =>
              if e.1 = (c.sender, c.seq) then
                ((c.sender, c.seq), setPush (f.addChunk c.off c.payload now) c.push)
              else e) } := by
  simp only [processChunk, hl, if_neg hov, hcomp, Bool.false_eq_true, if_false]


theorem processChunk_reject (now : ℚ) (c : Chunk) (s : BridgeState)
    (hover : s.frameSize < c.off + c.payload.length) :
    (processChunk now c s).completed = s.completed ∧
      ∀ e ∈ (processChunk now c s).framesMap,
        e ∈ s.framesMap ∨ e.2.buf = List.replicate s.frameSize 0 := by
  obtain ⟨hcompl, hfs, _⟩ := ensureKey_fields now c s
  have htail : (ensureKey now c s).completed = s.completed ∧
      ∀ e ∈ (ensureKey now c s).framesMap,
        e ∈ s.framesMap ∨ e.2.buf = List.replicate s.frameSize 0 := by
    refine ⟨hcompl, ?_⟩
    intro e he
    rcases ensureKey_mem now c s e he with h | h
    · exact Or.inl h
    · right
      rw [h]
      rfl
  cases hl : lookupKey (ensureKey now c s).framesMap (c.sender, c.seq) with
  | none => rw [processChunk_eq_of_lookup_none now c s hl]; exact htail
  | some f =>
      rw [processChunk_eq_of_over now c s f hl (by rw [hfs]; exact hover)]
      exact htail

theorem processChunk_accept (now : ℚ) (c : Chunk) (s : BridgeState)
    (hend : c.off + c.payload.length = s.frameSize)
    (hwf : ∀ e ∈ s.framesMap, e.2.buf.length = s.frameSize) :
    ∃ f2 : FrameState,
      ((f2.complete = true ∧
          (processChunk now c s).completed = dequeAppend s.completedCap s.completed f2) ∨
        (f2.complete = false ∧
          ((c.sender, c.seq), f2) ∈ (processChunk now c s).framesMap)) ∧
      ∀ j, j < c.payload.length → f2.buf[c.off + j]? = c.payload[j]? := by
  obtain ⟨f, hl⟩ := ensureKey_lookup now c s
  have hmem := mem_of_lookupKey hl
  have hbuflen : f.buf.length = s.frameSize := by
    rcases ensureKey_mem now c s _ hmem with h | h
    · exact hwf _ h
    · have hf : f = FrameState.mk0 s.frameSize c.sender c.seq now := congrArg Prod.snd h
      rw [hf]
      simp [FrameState.mk0]
  obtain ⟨hcompl, hfs, hcap, _⟩ := ensureKey_fields now c s
  have hov : ¬ (ensureKey now c s).frameSize < c.off + c.payload.length := by
    rw [hfs]
    omega
  refine ⟨setPush (f.addChunk c.off c.payload now) c.push, ?_, ?_⟩
  · cases hcomp : (setPush (f.addChunk c.off c.payload now) c.push).complete with
    | true =>
        left
        refine ⟨rfl, ?_⟩
        rw [processChunk_eq_complete now c s f hl hov hcomp]
        rw [show ({ ensureKey now c s with
          framesMap :=
            (ensureKey now c s).framesMap.eraseP (fun e => decide (e.1 = (c.sender, c.seq)))
          completed :=
            dequeAppend (ensureKey now c s).completedCap (ensureKey now c s).completed
              (setPush (f.addChunk c.off c.payload now) c.push)
          secFramesIn := (ensureKey now c s).secFramesIn + 1 } : BridgeState).completed =
            dequeAppend (ensureKey now c s).completedCap (ensureKey now c s).completed
              (setPush (f.addChunk c.off c.payload now) c.push) from rfl]
        rw [hcompl, hcap]
    | false =>
        right
        refine ⟨rfl, ?_⟩
        rw [processChunk_eq_incomplete now c s f hl hov hcomp]
        exact List.mem_map.2 ⟨((c.sender, c.seq), f), hmem, by simp⟩
  · intro j hj
    rw [setPush_buf]
    exact addChunk_buf_getElem f c.off c.payload now (by omega) j hj


theorem ensureKey_good (now : ℚ) (c : Chunk) (s : BridgeState) (hg : GoodState s) :
    GoodState (ensureKey now c s) := by
  obtain ⟨hmap, hcomp, hnd⟩ := hg
  refine ⟨?_, ?_, ensureKey_keys_nodup now c s hnd⟩
  · intro e he
    rcases ensureKey_mem now c s e he with h | h
    · exact hmap e h
    · rw [h]
      exact mk0_complete _ _ _ _
  · rw [(ensureKey_fields now c s).1]
    exact hcomp

theorem processChunk_good (now : ℚ) (c : Chunk) (s : BridgeState) (hg : GoodState s) :
    GoodState (processChunk now c s) := by
  obtain ⟨hmap1, hcomp1, hnd1⟩ := ensureKey_good now c s hg
  cases hl : lookupKey (ensureKey now c s).framesMap (c.sender, c.seq) with
  | none =>
      rw [processChunk_eq_of_lookup_none now c s hl]
      exact ⟨hmap1, hcomp1, hnd1⟩
  | some f =>
      by_cases hov : (ensureKey now c s).frameSize < c.off + c.payload.length
      · rw [processChunk_eq_of_over now c s f hl hov]
        exact ⟨hmap1, hcomp1, hnd1⟩
      · cases hcomp : (setPush (f.addChunk c.off c.payload now) c.push).complete with
        | true =>
            rw [processChunk_eq_complete now c s f hl hov hcomp]
            refine ⟨?_, ?_, ?_⟩
            · intro e he
              exact hmap1 e ((List.eraseP_sublist _).subset he)
            · intro x hx
              rcases mem_dequeAppend hx with h | h
              · exact hcomp1 x h
              · rw [h]
                exact hcomp
            · exact hnd1.sublist ((List.eraseP_sublist _).map Prod.fst)
        | false =>
            rw [processChunk_eq_incomplete now c s f hl hov hcomp]
            refine ⟨?_, hcomp1, ?_⟩
            · intro e he
              obtain ⟨e0, he0, heq⟩ := List.mem_map.1 he
              by_cases hk : e0.1 = (c.sender, c.seq)
              · rw [if_pos hk] at heq
                rw [← heq]
                exact hcomp
              · rw [if_neg hk] at heq
                rw [← heq]
                exact hmap1 e0 he0
            · rw [show ({ ensureKey now c s with
                  framesMap :=
                    (ensureKey now c s).framesMap.map
                      (fun e =>
                        if e.1 = (c.sender, c.seq) then
                          ((c.sender, c.seq), setPush (f.addChunk c.off c.payload now) c.push)
                        else e) } : BridgeState).framesMap =
                  (ensureKey now c s).framesMap.map
                    (fun e =>
                      if e.1 = (c.sender, c.seq) then
                        ((c.sender, c.seq), setPush (f.addChunk c.off c.payload now) c.push)
                      else e) from rfl]
              rw [keys_update]
              exact hnd1

theorem expireFrames_good (now timeoutMs : ℚ) (s : BridgeState) (hg : GoodState s) :
    GoodState (expireFrames now timeoutMs s) := by
  obtain ⟨hmap, hcomp, hnd⟩ := hg
  refine ⟨?_, hcomp, ?_⟩
  · intro e he
    exact hmap e (List.mem_filter.1 he).1
  · exact hnd.sublist ((List.filter_sublist _).map Prod.fst)

theorem writerDrain_good (now : ℚ) (s : BridgeState) (hg : GoodState s) :
    GoodState (writerDrain now s) := by
  obtain ⟨hmap, hcomp, hnd⟩ := hg
  rw [writerDrain]
  cases hq : s.completed.getLast? with
  | none => exact ⟨hmap, hcomp, hnd⟩
  | some latest =>
      refine ⟨hmap, ?_, hnd⟩
      intro f hf
      cases hf

theorem writerDrain_lastWritten (now : ℚ) (s : BridgeState) (f : FrameState) (hg : GoodState s)
    (h : (writerDrain now s).lastWritten = some f) :
    s.lastWritten = some f ∨ f.complete = true := by
  rw [writerDrain] at h
  cases hq : s.completed.getLast? with
  | none =>
      rw [hq] at h
      exact Or.inl h
  | some latest =>
      rw [hq] at h
      right
      have h2 : latest = f := by
        injection h with h2
      rw [← h2]
      exact hg.2.1 latest (List.mem_of_getLast?_eq_some hq)

theorem processChunk_completed_cases (now : ℚ) (c : Chunk) (s : BridgeState) (hg : GoodState s) :
    (processChunk now c s).completed = s.completed ∨
      ∃ f2, f2.complete = true ∧
        (processChunk now c s).completed = dequeAppend s.completedCap s.completed f2 ∧
        lookupKey (processChunk now c s).framesMap (c.sender, c.seq) = none := by
  obtain ⟨hmap1, hcomp1, hnd1⟩ := ensureKey_good now c s hg
  obtain ⟨hcompl, hfs, hcap, _⟩ := ensureKey_fields now c s
  cases hl : lookupKey (ensureKey now c s).framesMap (c.sender, c.seq) with
  | none =>
      rw [processChunk_eq_of_lookup_none now c s hl]
      exact Or.inl hcompl
  | some f =>
      by_cases hov : (ensureKey now c s).frameSize < c.off + c.payload.length
      · rw [processChunk_eq_of_over now c s f hl hov]
        exact Or.inl hcompl
      · cases hcomp : (setPush (f.addChunk c.off c.payload now) c.push).complete with
        | true =>
            right
            refine ⟨setPush (f.addChunk c.off c.payload now) c.push, hcomp, ?_, ?_⟩
            · rw [processChunk_eq_complete now c s f hl hov hcomp]
              rw [show ({ ensureKey now c s with
                framesMap :=
                  (ensureKey now c s).framesMap.eraseP
                    (fun e => decide (e.1 = (c.sender, c.seq)))
                completed :=
                  dequeAppend (ensureKey now c s).completedCap (ensureKey now c s).completed
                    (setPush (f.addChunk c.off c.payload now) c.push)
                secFramesIn := (ensureKey now c s).secFramesIn + 1 } : BridgeState).completed =
                  dequeAppend (ensureKey now c s).completedCap (ensureKey now c s).completed
                    (setPush (f.addChunk c.off c.payload now) c.push) from rfl]
              rw [hcompl, hcap]
            · rw [processChunk_eq_complete now c s f hl hov hcomp]
              exact lookupKey_eraseP_self _ _ hnd1
        | false =>
            left
            rw [processChunk_eq_incomplete now c s f hl hov hcomp]
            exact hcompl


theorem processChunk_length (now : ℚ) (c : Chunk) (s : BridgeState) (hmax : 1 ≤ s.maxActive)
    (hlen : s.framesMap.length ≤ s.maxActive) :
    (processChunk now c s).framesMap.length ≤ s.maxActive ∧
      (processChunk now c s).maxActive = s.maxActive := by
  have h1 := ensureKey_length now c s hmax hlen
  have hmaxeq : (ensureKey now c s).maxActive = s.maxActive :=
    (ensureKey_fields now c s).2.2.2.1
  cases hl : lookupKey (ensureKey now c s).framesMap (c.sender, c.seq) with
  | none =>
      rw [processChunk_eq_of_lookup_none now c s hl]
      exact ⟨h1, hmaxeq⟩
  | some f =>
      by_cases hov : (ensureKey now c s).frameSize < c.off + c.payload.length
      · rw [processChunk_eq_of_over now c s f hl hov]
        exact ⟨h1, hmaxeq⟩
      · cases hcomp : (setPush (f.addChunk c.off c.payload now) c.push).complete with
        | true =>
            rw [processChunk_eq_complete now c s f hl hov hcomp]
            refine ⟨?_, hmaxeq⟩
            exact le_trans ((List.eraseP_sublist _).length_le) h1
        | false =>
            rw [processChunk_eq_incomplete now c s f hl hov hcomp]
            refine ⟨?_, hmaxeq⟩
            rw [show ({ ensureKey now c s with
                framesMap :=
                  (ensureKey now c s).framesMap.map
                    (fun e =>
                      if e.1 = (c.sender, c.seq) then
                        ((c.sender, c.seq), setPush (f.addChunk c.off c.payload now) c.push)
                      else e) } : BridgeState).framesMap =
                (ensureKey now c s).framesMap.map
                  (fun e =>
                    if e.1 = (c.sender, c.seq) then
                      ((c.sender, c.seq), setPush (f.addChunk c.off c.payload now) c.push)
                    else e) from rfl]
            rw [List.length_map]
            exact h1

theorem expireFrames_length (now timeoutMs : ℚ) (s : BridgeState) :
    (expireFrames now timeoutMs s).framesMap.length ≤ s.framesMap.length :=
  (List.filter_sublist _).length_le

theorem ensureKey_eq_of_isSome (now : ℚ) (c : Chunk) (s : BridgeState)
    (h : (lookupKey s.framesMap (c.sender, c.seq)).isSome) : ensureKey now c s = s := by
  rw [ensureKey, if_pos h]

theorem dequeAppend_full (cap : ℕ) (q : List FrameState) (f : FrameState)
    (hq : q.length = cap) :
    dequeAppend cap q f = q.drop 1 ++ [f] := by
  rw [dequeAppend, if_neg (by omega)]
  have h1 : q.length + 1 - cap = 1 := by omega
  rw [h1]


/-- C4: a FrameState is complete exactly when no byte is missing and the
PUSH flag was seen; the chunk step, the expiry scan and the writer step
preserve the invariant that active frames are incomplete and queued
completed frames are complete over distinct keys; a frame handed to the
writer is therefore complete; and one chunk step either leaves the
completed queue unchanged or appends exactly the frame that just became
complete while removing its key from the active table, so a frame
transitions to the completed queue exactly once and is never written
while incomplete. -/
theorem C4_complete_once :
    (∀ f : FrameState, f.complete = true ↔ f.missing = 0 ∧ f.sawEof = true) ∧
      (∀ (now : ℚ) (c : Chunk) (s : BridgeState), GoodState s →
        GoodState (processChunk now c s)) ∧
      (∀ (now timeoutMs : ℚ) (s : BridgeState), GoodState s →
        GoodState (expireFrames now timeoutMs s)) ∧
      (∀ (now : ℚ) (s : BridgeState), GoodState s → GoodState (writerDrain now s)) ∧
      (∀ (now : ℚ) (s : BridgeState) (f : FrameState), GoodState s →
        (writerDrain now s).lastWritten = some f →
          s.lastWritten = some f ∨ f.complete = true) ∧
      (∀ (now : ℚ) (c : Chunk) (s : BridgeState), GoodState s →
        (processChunk now c s).completed = s.completed ∨
          ∃ f2, f2.complete = true ∧
            (processChunk now c s).completed = dequeAppend s.completedCap s.completed f2 ∧
            lookupKey (processChunk now c s).framesMap (c.sender, c.seq) = none) := by
  refine ⟨?_, processChunk_good, expireFrames_good, writerDrain_good,
    writerDrain_lastWritten, processChunk_completed_cases⟩
  intro f
  rw [FrameState.complete]
  simp [Bool.and_eq_true, beq_iff_eq]

/-- C4: witness at the initial bridge state and the single-packet
chunk. -/
theorem C4_witness : GoodState (processChunk 0 chunkFull (BridgeState.init 1 1)) :=
  C4_complete_once.2.1 0 chunkFull (BridgeState.init 1 1)
    (by refine ⟨?_, ?_, ?_⟩ <;> simp [GoodState, BridgeState.init])

/-- C5: the chunk step keeps the active table at or below the cap and
does not change the cap, the expiry scan only shrinks the table, the cap
constructed by the bridge is 12, and a chunk for a fresh key hitting a
full table evicts a first entry of minimal start time, counts it
incomplete, and appends a fresh FrameState for the new key. -/
theorem C5_active_bound :
    (∀ (now : ℚ) (c : Chunk) (s : BridgeState), 1 ≤ s.maxActive →
        s.framesMap.length ≤ s.maxActive →
          (processChunk now c s).framesMap.length ≤ s.maxActive ∧
            (processChunk now c s).maxActive = s.maxActive) ∧
      (∀ (now timeoutMs : ℚ) (s : BridgeState),
        (expireFrames now timeoutMs s).framesMap.length ≤ s.framesMap.length) ∧
      (BridgeState.init 90 50).maxActive = 12 ∧
      (∀ (now : ℚ) (c : Chunk) (s : BridgeState),
        lookupKey s.framesMap (c.sender, c.seq) = none →
        s.maxActive ≤ s.framesMap.length → 1 ≤ s.maxActive →
          ∃ old ∈ s.framesMap, (∀ e ∈ s.framesMap, old.2.startTs ≤ e.2.startTs) ∧
            (ensureKey now c s).framesMap =
              s.framesMap.eraseP (fun e => decide (e.1 = old.1)) ++
                [((c.sender, c.seq), FrameState.mk0 s.frameSize c.sender c.seq now)] ∧
            (ensureKey now c s).secIncomplete = s.secIncomplete + 1) :=
  ⟨processChunk_length, expireFrames_length, rfl, ensureKey_evict⟩

/-- C5: witness at the initial bridge state. -/
theorem C5_witness :
    (processChunk 0 chunkFull (BridgeState.init 1 1)).framesMap.length ≤
        (BridgeState.init 1 1).maxActive ∧
      (processChunk 0 chunkFull (BridgeState.init 1 1)).maxActive =
        (BridgeState.init 1 1).maxActive :=
  C5_active_bound.1 0 chunkFull (BridgeState.init 1 1) (by decide) (by decide)

/-- C6: a chunk whose end equals the frame size is accepted: the frame
for its key, found in the active table or just moved to the completed
queue, holds the payload bytes at the offset; a chunk whose end exceeds
the frame size is rejected: the completed queue is unchanged and every
active buffer is either an unchanged previous buffer or the zero buffer
of a freshly inserted FrameState, so the payload is copied into no
assembly buffer. -/
theorem C6_bounds_check :
    (∀ (now : ℚ) (c : Chunk) (s : BridgeState),
        c.off + c.payload.length = s.frameSize →
        (∀ e ∈ s.framesMap, e.2.buf.length = s.frameSize) →
          ∃ f2 : FrameState,
            ((f2.complete = true ∧
                (processChunk now c s).completed =
                  dequeAppend s.completedCap s.completed f2) ∨
              (f2.complete = false ∧
                ((c.sender, c.seq), f2) ∈ (processChunk now c s).framesMap)) ∧
            ∀ j, j < c.payload.length → f2.buf[c.off + j]? = c.payload[j]?) ∧
      (∀ (now : ℚ) (c : Chunk) (s : BridgeState),
        s.frameSize < c.off + c.payload.length →
          (processChunk now c s).completed = s.completed ∧
            ∀ e ∈ (processChunk now c s).framesMap,
              e ∈ s.framesMap ∨ e.2.buf = List.replicate s.frameSize 0) :=
  ⟨processChunk_accept, processChunk_reject⟩

/-- C6: witness: on a 3-byte frame, the chunk covering bytes 0 to 2 is
accepted and a chunk of the same length at offset 1 is rejected. -/
theorem C6_witness :
    (∃ f2 : FrameState,
        ((f2.complete = true ∧
            (processChunk 0 chunkFull (BridgeState.init 1 1)).completed =
              dequeAppend (BridgeState.init 1 1).completedCap
                (BridgeState.init 1 1).completed f2) ∨
          (f2.complete = false ∧
            ((0, 0), f2) ∈ (processChunk 0 chunkFull (BridgeState.init 1 1)).framesMap)) ∧
        ∀ j, j < 3 → f2.buf[0 + j]? = [1, 2, 3][j]?) ∧
      ((processChunk 0 ⟨0, 0, 1, [1, 2, 3], true⟩ (BridgeState.init 1 1)).completed =
          (BridgeState.init 1 1).completed ∧
        ∀ e ∈ (processChunk 0 ⟨0, 0, 1, [1, 2, 3], true⟩ (BridgeState.init 1 1)).framesMap,
          e ∈ (BridgeState.init 1 1).framesMap ∨
            e.2.buf = List.replicate (BridgeState.init 1 1).frameSize 0) :=
  ⟨C6_bounds_check.1 0 chunkFull (BridgeState.init 1 1) (by decide)
      (by simp [BridgeState.init]),
    C6_bounds_check.2 0 ⟨0, 0, 1, [1, 2, 3], true⟩ (BridgeState.init 1 1) (by decide)⟩

/-- C7: counterexample. A single-packet frame completes while the
completed queue already holds its capacity of 50 entries: the oldest
queued frame is dropped and the new frame enqueued, but none of the
drop or incomplete telemetry counters changes, contradicting the claim
that the drop is counted. -/
theorem C7_counterexample :
    stateFullQueue.completedCap = 50 ∧
      stateFullQueue.completed.length = 50 ∧
      (processChunk 0 chunkFull stateFullQueue).completed =
        List.replicate 49 frameOld ++ [frameSeq 0] ∧
      (processChunk 0 chunkFull stateFullQueue).framesDropped = stateFullQueue.framesDropped ∧
      (processChunk 0 chunkFull stateFullQueue).secDropped = stateFullQueue.secDropped ∧
      (processChunk 0 chunkFull stateFullQueue).secIncomplete = stateFullQueue.secIncomplete := by
  refine ⟨rfl, ?_, ?_, ?_, ?_, ?_⟩ <;>
    simp [processChunk, ensureKey, lookupKey, stateFullQueue, BridgeState.init, chunkFull,
      FrameState.mk0, FrameState.addChunk, setPush, FrameState.complete, dequeAppend,
      frameSeq, frameOld]

/-- C7: amended. When a chunk completes an already active frame while
the completed queue is at capacity, the oldest completed frame is
dropped from the queue and the newly completed frame is enqueued, but
the drop is silent: the frames dropped, per-second dropped and
per-second incomplete counters are unchanged, while frames in rises by
one. -/
theorem C7_amended :
    ∀ (now : ℚ) (c : Chunk) (s : BridgeState) (f : FrameState),
      lookupKey s.framesMap (c.sender, c.seq) = some f →
      ¬ s.frameSize < c.off + c.payload.length →
      (setPush (f.addChunk c.off c.payload now) c.push).complete = true →
      s.completed.length = s.completedCap →
        (processChunk now c s).completed =
            s.completed.drop 1 ++ [setPush (f.addChunk c.off c.payload now) c.push] ∧
          (processChunk now c s).framesDropped = s.framesDropped ∧
          (processChunk now c s).secDropped = s.secDropped ∧
          (processChunk now c s).secIncomplete = s.secIncomplete ∧
          (processChunk now c s).secFramesIn = s.secFramesIn + 1 := by
  intro now c s f hlook hov hcomp hfull
  have hek : ensureKey now c s = s := ensureKey_eq_of_isSome now c s (by rw [hlook]; rfl)
  have hl2 : lookupKey (ensureKey now c s).framesMap (c.sender, c.seq) = some f := by
    rw [hek]
    exact hlook
  have hov2 : ¬ (ensureKey now c s).frameSize < c.off + c.payload.length := by
    rw [hek]
    exact hov
  rw [processChunk_eq_complete now c s f hl2 hov2 hcomp]
  simp only [hek]
  refine ⟨dequeAppend_full _ _ _ hfull, by trivial, by trivial, by trivial, by trivial⟩

/-- C7: witness at a state with one active frame and the queue full. -/
theorem C7_witness :
    (processChunk 0 chunkFull stateActive).completed =
        stateActive.completed.drop 1 ++
          [setPush ((FrameState.mk0 3 0 0 0).addChunk 0 [1, 2, 3] 0) true] ∧
      (processChunk 0 chunkFull stateActive).framesDropped = stateActive.framesDropped ∧
      (processChunk 0 chunkFull stateActive).secDropped = stateActive.secDropped ∧
      (processChunk 0 chunkFull stateActive).secIncomplete = stateActive.secIncomplete ∧
      (processChunk 0 chunkFull stateActive).secFramesIn = stateActive.secFramesIn + 1 :=
  C7_amended 0 chunkFull stateActive (FrameState.mk0 3 0 0 0) (by decide) (by decide)
    (by decide) (by simp [stateActive, BridgeState.init])

/-- C9: counterexample. The empty mapping, which the loader returns for
an empty CSV, yields zero routing entries, yet the builder returns no
fast routing table at all because of its early return, not the linear
identity mapping of length H times W the claim states. -/
theorem C9_counterexample :
    routingPairs 2 2 [] = [] ∧
      buildRoutingTable 2 2 [] = none ∧
      buildRoutingTable 2 2 [] ≠ some (List.range (2 * 2), List.range (2 * 2)) := by
  exact ⟨by decide, by decide, by decide⟩

/-- C9: amended. The linear identity fallback of length H times W is
produced exactly when the mapping is nonempty but yields zero routing
entries; an empty mapping takes the early return and leaves the fast
routing table unset; and a missing CSV makes the loader return a
4500-entry fallback mapping rather than zero entries. -/
theorem C9_amended :
    (∀ (height width : ℕ) (mapping : Mapping), mapping ≠ [] →
        routingPairs height width mapping = [] →
          buildRoutingTable height width mapping =
            some (List.range (width * height), List.range (width * height))) ∧
      (∀ height width : ℕ, buildRoutingTable height width [] = none) ∧
      fileNotFoundFallback.length = 4500 := by
  refine ⟨?_, ?_, ?_⟩
  · intro h w m hm hp
    rw [buildRoutingTable, if_neg hm]
    simp only [hp, ne_eq, not_true_eq_false, if_false]
  · intro h w
    rfl
  · simp [fileNotFoundFallback]

/-- C9: witness: a nonempty mapping whose single LED index 9000 is out
of range yields zero routing entries and the identity fallback of length
4 on a 2 by 2 grid. -/
theorem C9_witness :
    buildRoutingTable 2 2 [((0, 0), 9000)] =
      some (List.range (2 * 2), List.range (2 * 2)) :=
  C9_amended.1 2 2 [((0, 0), 9000)] (by decide) (by decide)

theorem scatterPix_getElem_of_notin (dst : List ℕ) (pix : List (ℕ × ℕ × ℕ)) (buf : List ℕ)
    (i : ℕ) (hi : ∀ d ∈ dst, i ≠ d * 3 ∧ i ≠ d * 3 + 1 ∧ i ≠ d * 3 + 2) :
    (scatterPix buf dst pix)[i]? = buf[i]? := by
  induction dst generalizing pix buf with
  | nil => rfl
  | cons d ds ih =>
      cases pix with
      | nil => rfl
      | cons p ps =>
          rw [scatterPix]
          obtain ⟨h0, h1, h2⟩ := hi d (List.mem_cons_self _ _)
          rw [ih ps _ (fun d2 hd2 => hi d2 (List.mem_cons_of_mem _ hd2))]
          rw [List.getElem?_set_ne (by omega), List.getElem?_set_ne (by omega),
            List.getElem?_set_ne (by omega)]

theorem scatterPix_length (dst : List ℕ) (pix : List (ℕ × ℕ × ℕ)) (buf : List ℕ) :
    (scatterPix buf dst pix).length = buf.length := by
  induction dst generalizing pix buf with
  | nil => rfl
  | cons d ds ih =>
      cases pix with
      | nil => rfl
      | cons p ps =>
          rw [scatterPix, ih]
          simp

/-- C10: a write mutates only the buffer bytes at positions three times
a routed destination index and its two successors; every other byte
keeps its previous value, the buffer keeps its length, and the whole
buffer, untouched bytes included, is copied to the mmap region, so an
LED absent from the routing table retains the last value stored at its
position. -/
theorem C10_write_effect :
    ∀ (w : Writer) (gcurve : ℚ → ℚ) (frame : List (ℕ × ℕ × ℕ)),
      (∀ i : ℕ, (∀ d ∈ w.fastDest, i ≠ d * 3 ∧ i ≠ d * 3 + 1 ∧ i ≠ d * 3 + 2) →
          (w.write gcurve frame).buffer[i]? = w.buffer[i]?) ∧
        (w.write gcurve frame).buffer.length = w.buffer.length ∧
        (w.write gcurve frame).mmapData = (w.write gcurve frame).buffer := by
  intro w gcurve frame
  refine ⟨?_, ?_, rfl⟩
  · intro i hi
    exact scatterPix_getElem_of_notin w.fastDest _ w.buffer i hi
  · exact scatterPix_length w.fastDest _ w.buffer

/-- C10: witness: byte 0 is not routed and keeps its value across a
write, and the mmap region equals the buffer after the write. -/
theorem C10_witness :
    (writerCE.write idQ [(10, 20, 30)]).buffer[0]? = writerCE.buffer[0]? ∧
      (writerCE.write idQ [(10, 20, 30)]).mmapData = (writerCE.write idQ [(10, 20, 30)]).buffer :=
  ⟨(C10_write_effect writerCE idQ [(10, 20, 30)]).1 0 (by decide),
    (C10_write_effect writerCE idQ [(10, 20, 30)]).2.2⟩

end TwinklyWall
